import Mathlib

/-!
# kappelmeister: the read-through cache of `kpservice.go`

A shallow embedding of `CacheItem`, `Cache`, `NewCache`, `Cache.Get` and
`Cache.fetch`, together with the part of Go's standard library that `Get` relies
on for its staleness test, `int64(c.cacheTTL.Seconds())`: `time.Duration.Seconds`
computes in `float64`, so binary64 rounding is modelled exactly, with integers.

Conventions.
* Go's `interface{}` is `Option α`: `none` is `nil`, which is also what
  `json.Unmarshal` stores for the JSON text `null`.
* Go's `error` is `Option ε`: `none` is the `nil` error.
* `time.Now().Unix()` readings are integers (seconds).  They are far from the
  limits of `int64`, so the subtraction in `Get` is the mathematical one.
* A `time.Duration` is an integer number of nanoseconds.
-/

namespace Kappelmeister

/-! ## binary64 arithmetic, as far as `Duration.Seconds` needs it -/

/-- Nearest integer to `n / d` (for `d > 0`), a tie going to the even neighbour. -/
def roundHalfEven (n d : Nat) : Nat :=
  let q := n / d
  let r := n % d
  if 2 * r < d then q
  else if d < 2 * r then q + 1
  else if q % 2 = 0 then q else q + 1

/-- Number of binary digits of `n`, by halving; `fuel` bounds the number of halvings. -/
def bitLenAux : Nat → Nat → Nat
  | 0, _ => 0
  | fuel + 1, n => if n = 0 then 0 else bitLenAux fuel (n / 2) + 1

/-- Number of binary digits of `n` (`0` for `0`). -/
def bitLen (n : Nat) : Nat := bitLenAux n n

/-- Every finite `float64` is an integer multiple of `2^-1074`; `F64.scale` is the
number of such units in `1.0`. -/
@[irreducible]
def F64.scale : Nat := 2 ^ 1074

/-- A finite `float64`, held as its number of units of `2^-1074`. -/
structure F64 where
  units : Int
deriving DecidableEq, Repr

/-- The `float64` nearest to the non-negative rational `n / d` (round to nearest, ties
to even, 53 significant bits), in units of `2^-1074`.  Overflow to infinity is not
modelled: magnitudes stay below `2^1024`. -/
def F64.roundNat (n d : Nat) : Nat :=
  let s := n * F64.scale / d
  let sh := bitLen s - 53
  roundHalfEven (n * F64.scale) (d * 2 ^ sh) * 2 ^ sh

/-- The `float64` nearest to the rational `n / d`, `d > 0`; rounding is symmetric in the sign. -/
def F64.round (n : Int) (d : Nat) : F64 :=
  if n < 0 then ⟨-(F64.roundNat n.natAbs d : Int)⟩ else ⟨(F64.roundNat n.natAbs d : Int)⟩

/-- Go's conversion `float64(z)` of an integer. -/
def F64.ofInt (z : Int) : F64 := F64.round z 1

/-- Go's `x + y` on `float64`. -/
def F64.add (x y : F64) : F64 := F64.round (x.units + y.units) F64.scale

/-- Go's `x / y` on `float64`, for `y ≠ 0`. -/
def F64.div (x y : F64) : F64 :=
  if y.units < 0 then F64.round (-x.units) y.units.natAbs else F64.round x.units y.units.natAbs

/-- Go's conversion `int64(x)` of a `float64`: the fraction is discarded. -/
def F64.toInt64 (x : F64) : Int := Int.tdiv x.units F64.scale

/-- Nanoseconds in `time.Second`. -/
def Second : Int := 1000000000

/-- Nanoseconds in `time.Minute`. -/
def Minute : Int := 60 * Second

/-- Go's `time.Duration.Seconds`:
`sec := d / Second; nsec := d % Second; return float64(sec) + float64(nsec)/1e9`. -/
def Duration.Seconds (d : Int) : F64 :=
  let sec := Int.tdiv d Second
  let nsec := Int.tmod d Second
  F64.add (F64.ofInt sec) (F64.div (F64.ofInt nsec) (F64.ofInt 1000000000))

/-- The right-hand side of the staleness test in `Get`: `int64(c.cacheTTL.Seconds())`. -/
def ttlSeconds (cacheTTL : Int) : Int := F64.toInt64 (Duration.Seconds cacheTTL)

/-! ## Data model -/

/-- Go's `CacheItem`. -/
structure CacheItem (α : Type) where
  Value : Option α
  Timestamp : Int

/-- Go's `Cache`.  The map `data` is a partial function on keys.  The lock and the HTTP
client carry no data of their own: the lock is the identity on sequential runs, and what
the client answers is part of the `World` a call runs in. -/
structure Cache (α : Type) where
  data : String → Option (CacheItem α)
  serverURL : String
  cacheTTL : Int

/-- What `fetch` reads from an `*http.Response`: the status code and the outcome of
`ioutil.ReadAll(resp.Body)`. -/
structure HttpResponse (ε : Type) where
  StatusCode : Int
  Body : Except ε String

/-- What one call of `Get` observes of the outside world. -/
structure World (ε : Type) where
  -- the reading of `time.Now().Unix()` in the staleness test (line 40)
  now₁ : Int
  -- the outcome of `c.client.Get(url)` (line 59)
  httpGet : String → Except ε (HttpResponse ε)
  -- the reading of `time.Now().Unix()` in the write (line 53)
  now₂ : Int

/-- What a call of `Get` returns and does: the returned pair, the cache afterwards, and
the URLs requested from the backend during the call, in order. -/
structure GetResult (α ε : Type) where
  value : Option α
  err : Option ε
  cache : Cache α
  requests : List String

/-! ## Operations -/

/-- Go's `NewCache`. -/
def NewCache {α : Type} (serverURL : String) (cacheTTL : Int) : Cache α :=
  { data := fun _ => none, serverURL := serverURL, cacheTTL := cacheTTL }

/-- The cache built by `main`. -/
def mainCache {α : Type} : Cache α := NewCache "http://localhost:8080" (5 * Minute)

/-- The URL `fetch` requests. -/
def Cache.url {α : Type} (c : Cache α) (collectionName key : String) : String :=
  c.serverURL ++ "/collections/" ++ collectionName ++ "?value=" ++ key

/-- Go's `Cache.fetch`.  On a status other than 200 the source returns `nil, err` with
the `err` of the request, which is `nil` on that path. -/
def Cache.fetch {α ε : Type} (c : Cache α) (jsonUnmarshal : String → Except ε (Option α))
    (httpGet : String → Except ε (HttpResponse ε)) (collectionName key : String) :
    Option α × Option ε :=
  match httpGet (c.url collectionName key) with
  | .error err => (none, some err)
  | .ok resp =>
    if resp.StatusCode ≠ 200 then (none, none)
    else
      match resp.Body with
      | .error err => (none, some err)
      | .ok body =>
        match jsonUnmarshal body with
        | .error err => (none, some err)
        | .ok value => (value, none)

/-- The staleness test of `Get`:
`exists && time.Now().Unix()-item.Timestamp < int64(c.cacheTTL.Seconds())`. -/
def Cache.fresh {α : Type} (c : Cache α) (now : Int) (key : String) : Bool :=
  match c.data key with
  | some item => decide (now - item.Timestamp < ttlSeconds c.cacheTTL)
  | none => false

/-- Go's `Cache.Get`.  The first alternative is the early return of line 41; every
other case falls through to the fetch of line 44. -/
def Cache.Get {α ε : Type} (c : Cache α) (jsonUnmarshal : String → Except ε (Option α))
    (w : World ε) (collectionName key : String) : GetResult α ε :=
  match c.data key, c.fresh w.now₁ key with
  | some item, true => { value := item.Value, err := none, cache := c, requests := [] }
  | _, _ =>
    match c.fetch jsonUnmarshal w.httpGet collectionName key with
    | (_, some err) =>
      { value := none, err := some err, cache := c, requests := [c.url collectionName key] }
    | (value, none) =>
      { value := value, err := none,
        cache := { c with data := fun k => if k = key then some ⟨value, w.now₂⟩ else c.data k },
        requests := [c.url collectionName key] }

/-! ## Sequential runs -/

/-- One call of `Get` in a sequential run, with the world it runs in. -/
structure Call (ε : Type) where
  collectionName : String
  key : String
  world : World ε

/-- The clock readings of a sequential run, in the order in which they are taken. -/
def clockReadings {ε : Type} : List (Call ε) → List Int
  | [] => []
  | call :: rest => call.world.now₁ :: call.world.now₂ :: clockReadings rest

/-- A sequential (non-overlapping) run of `Get` calls from cache `c`: every call paired
with what it returned and did, in order. -/
def Cache.run {α ε : Type} (c : Cache α) (jsonUnmarshal : String → Except ε (Option α)) :
    List (Call ε) → List (Call ε × GetResult α ε)
  | [] => []
  | call :: rest =>
    let r := c.Get jsonUnmarshal call.world call.collectionName call.key
    (call, r) :: r.cache.run jsonUnmarshal rest

/-- The backend answers the request for `url` with status 200 and a body that decodes
to `v`. -/
def Succeeds {α ε : Type} (jsonUnmarshal : String → Except ε (Option α))
    (httpGet : String → Except ε (HttpResponse ε)) (url : String) (v : Option α) : Prop :=
  ∃ body, httpGet url = .ok ⟨200, .ok body⟩ ∧ jsonUnmarshal body = .ok v

/-! ## Overlapping calls

`Get` touches the shared map twice, each time inside a critical section of the
`sync.RWMutex`: the lookup of lines 36-38 and the write of lines 49-55.  Between the two
it works on its own copies.  A `*CacheItem` is never modified after it is stored, so the
fields read on line 40 are those seen under the read lock.  An overlapping execution is
therefore an interleaving of the following atomic steps of the calls in flight. -/

/-- Where a call of `Get` stands. -/
inductive Pc (α ε : Type) where
  -- before `c.RLock()`, line 36
  | start
  -- after `c.RUnlock()`, line 38, holding `item, exists`
  | looked (item : Option (CacheItem α))
  -- the staleness test of line 40 failed: before `c.fetch`, line 44
  | fetching
  -- after `fetch` returned a nil error: before `c.Lock()`, line 49
  | fetched (value : Option α)
  -- returned `value, err`
  | done (value : Option α) (err : Option ε)

/-- A call of `Get` in flight. -/
structure Thread (α ε : Type) where
  collectionName : String
  key : String
  pc : Pc α ε

/-- The shared cache and the `n` calls in flight. -/
structure Sys (α ε : Type) (n : Nat) where
  cache : Cache α
  threads : Fin n → Thread α ε

/-- One scheduling decision: the call that takes its next step, and what that step
observes of the outside world (the clock if it reads it, the backend if it asks it). -/
structure Tick (ε : Type) (n : Nat) where
  tid : Fin n
  now : Int
  httpGet : String → Except ε (HttpResponse ε)

/-- The next atomic step of one call. -/
def Thread.step {α ε : Type} (jsonUnmarshal : String → Except ε (Option α)) (now : Int)
    (httpGet : String → Except ε (HttpResponse ε)) (c : Cache α) (t : Thread α ε) :
    Cache α × Thread α ε :=
  match t.pc with
  | .start => (c, { t with pc := .looked (c.data t.key) })
  | .looked (some item) =>
    if now - item.Timestamp < ttlSeconds c.cacheTTL then
      (c, { t with pc := .done item.Value none })
    else (c, { t with pc := .fetching })
  | .looked none => (c, { t with pc := .fetching })
  | .fetching =>
    match c.fetch jsonUnmarshal httpGet t.collectionName t.key with
    | (_, some err) => (c, { t with pc := .done none (some err) })
    | (value, none) => (c, { t with pc := .fetched value })
  | .fetched value =>
    ({ c with data := fun k => if k = t.key then some ⟨value, now⟩ else c.data k },
      { t with pc := .done value none })
  | .done value err => (c, { t with pc := .done value err })

/-- One step of the system: the scheduled call takes its next step. -/
def Sys.step {α ε : Type} {n : Nat} (jsonUnmarshal : String → Except ε (Option α))
    (s : Sys α ε n) (tick : Tick ε n) : Sys α ε n :=
  let r := (s.threads tick.tid).step jsonUnmarshal tick.now tick.httpGet s.cache
  { cache := r.1, threads := fun i => if i = tick.tid then r.2 else s.threads i }

/-- The system after a schedule. -/
def Sys.run {α ε : Type} {n : Nat} (jsonUnmarshal : String → Except ε (Option α))
    (s : Sys α ε n) (ticks : List (Tick ε n)) : Sys α ε n :=
  ticks.foldl (Sys.step jsonUnmarshal) s

/-- The calls `Get(collectionName i, key)` for `i < n`, none of which has started. -/
def Sys.init {α ε : Type} {n : Nat} (c : Cache α) (collectionName : Fin n → String)
    (key : String) : Sys α ε n :=
  { cache := c, threads := fun i => ⟨collectionName i, key, .start⟩ }

/-- The call has returned. -/
def Pc.isDone {α ε : Type} : Pc α ε → Bool
  | .done _ _ => true
  | _ => false

/-- The number of steps a call still has to take, at most. -/
def Pc.remaining {α ε : Type} : Pc α ε → Nat
  | .start => 4
  | .looked _ => 3
  | .fetching => 2
  | .fetched _ => 1
  | .done _ _ => 0

/-- What the store may hold for key `k` while calls for `k` overlap, the backend
answering `v` and the clock never reading less than `t₀`. -/
def CacheOk {α : Type} (k : String) (v : Option α) (t₀ : Int) (c : Cache α) : Prop :=
  ∀ item, c.data k = some item → item.Value = v ∧ t₀ ≤ item.Timestamp

/-- What a call for `k` may hold at each point, under the same conditions. -/
def PcOk {α ε : Type} (k : String) (v : Option α) (c : Cache α) : Pc α ε → Prop
  | .start => True
  | .looked item => ∀ it, item = some it → it.Value = v ∧ (c.data k).isSome = true
  | .fetching => True
  | .fetched x => x = v
  | .done x e => x = v ∧ e = none ∧ (c.data k).isSome = true

/-- The invariant of overlapping calls for `k`. -/
def Sys.Inv {α ε : Type} {n : Nat} (k : String) (v : Option α) (t₀ : Int) (s : Sys α ε n) :
    Prop :=
  CacheOk k v t₀ s.cache ∧ ∀ i, (s.threads i).key = k ∧ PcOk k v s.cache (s.threads i).pc

/-- How often call `i` is scheduled. -/
def scheduled {ε : Type} {n : Nat} (ticks : List (Tick ε n)) (i : Fin n) : Nat :=
  (ticks.filter (fun tk => decide (tk.tid = i))).length

/-! ## Fixtures for the examples -/

/-- A cache holding one entry, `"x" ↦ {value, timestamp}`, for the examples. -/
def singleton (cacheTTL : Int) (value : Option String) (timestamp : Int) : Cache String :=
  { data := fun k => if k = "x" then some ⟨value, timestamp⟩ else none,
    serverURL := "http://localhost:8080", cacheTTL := cacheTTL }

/-- A decoder for the examples: the body `"null"` is `nil`, the body `"?"` does not
decode, and any other body decodes to itself. -/
def decodeText (body : String) : Except String (Option String) :=
  if body = "null" then .ok none
  else if body = "?" then .error "invalid character"
  else .ok (some body)

/-- A backend for the examples that answers every request with the given status and body. -/
def answer (status : Int) (body : String) : String → Except String (HttpResponse String) :=
  fun _ => .ok ⟨status, .ok body⟩

/-- A backend for the examples that cannot be reached. -/
def unreachable : String → Except String (HttpResponse String) :=
  fun _ => .error "connection refused"

/-- A run for the examples: three calls for `("items", "x")` at seconds 0, 100 and 400,
the backend answering `"a1"` each time it is asked. -/
def threeCalls : List (Call String) :=
  [⟨"items", "x", ⟨0, answer 200 "a1", 0⟩⟩, ⟨"items", "x", ⟨100, answer 200 "a1", 100⟩⟩,
    ⟨"items", "x", ⟨400, answer 200 "a1", 401⟩⟩]

/-- A run for the examples: two calls for `("items", "x")` at seconds 0 and 1 while the
backend cannot be reached. -/
def twoFailedCalls : List (Call String) :=
  [⟨"items", "x", ⟨0, unreachable, 0⟩⟩, ⟨"items", "x", ⟨1, unreachable, 1⟩⟩]

/-- A run for the examples: two calls for `("items", "x")` at seconds 0 and 1, the backend
answering `"a1"` each time it is asked. -/
def twoCalls : List (Call String) :=
  [⟨"items", "x", ⟨0, answer 200 "a1", 0⟩⟩, ⟨"items", "x", ⟨1, answer 200 "a1", 1⟩⟩]

/-- A schedule for the examples: two calls, both looking up before either writes. -/
def bothMiss : List (Tick String 2) :=
  [⟨0, 10, answer 200 "a1"⟩, ⟨1, 10, answer 200 "a1"⟩, ⟨0, 10, answer 200 "a1"⟩,
    ⟨1, 11, answer 200 "a1"⟩, ⟨0, 11, answer 200 "a1"⟩, ⟨1, 12, answer 200 "a1"⟩,
    ⟨1, 12, answer 200 "a1"⟩, ⟨0, 13, answer 200 "a1"⟩]

/-! ## Basic facts about `Get` and `fetch` -/

theorem Get_of_fresh {α ε : Type} (c : Cache α) (ju : String → Except ε (Option α))
    (w : World ε) (collectionName key : String) (item : CacheItem α)
    (hitem : c.data key = some item)
    (hfresh : w.now₁ - item.Timestamp < ttlSeconds c.cacheTTL) :
    c.Get ju w collectionName key
      = { value := item.Value, err := none, cache := c, requests := [] } := by
  have hf : c.fresh w.now₁ key = true := by
    simp [Cache.fresh, hitem, hfresh]
  simp [Cache.Get, hitem, hf]

theorem Get_of_not_fresh_err {α ε : Type} (c : Cache α) (ju : String → Except ε (Option α))
    (w : World ε) (collectionName key : String) (x : Option α) (e : ε)
    (hstale : c.fresh w.now₁ key = false)
    (hfetch : c.fetch ju w.httpGet collectionName key = (x, some e)) :
    c.Get ju w collectionName key
      = { value := none, err := some e, cache := c,
          requests := [c.url collectionName key] } := by
  unfold Cache.Get
  rw [hstale, hfetch]
  cases c.data key <;> rfl

theorem Get_of_not_fresh_ok {α ε : Type} (c : Cache α) (ju : String → Except ε (Option α))
    (w : World ε) (collectionName key : String) (v : Option α)
    (hstale : c.fresh w.now₁ key = false)
    (hfetch : c.fetch ju w.httpGet collectionName key = (v, none)) :
    c.Get ju w collectionName key
      = { value := v, err := none,
          cache := { c with data := fun k => if k = key then some ⟨v, w.now₂⟩ else c.data k },
          requests := [c.url collectionName key] } := by
  unfold Cache.Get
  rw [hstale, hfetch]
  cases c.data key <;> rfl

theorem fetch_of_succeeds {α ε : Type} (c : Cache α) (ju : String → Except ε (Option α))
    (httpGet : String → Except ε (HttpResponse ε)) (collectionName key : String)
    (v : Option α) (h : Succeeds ju httpGet (c.url collectionName key) v) :
    c.fetch ju httpGet collectionName key = (v, none) := by
  obtain ⟨body, hget, hbody⟩ := h
  simp [Cache.fetch, hget, hbody]

theorem fresh_eq_false_iff {α : Type} (c : Cache α) (now : Int) (key : String) :
    c.fresh now key = false ↔
      ∀ item, c.data key = some item → ttlSeconds c.cacheTTL ≤ now - item.Timestamp := by
  unfold Cache.fresh
  cases h : c.data key with
  | none => simp
  | some item => simp

/-! ## Facts about the binary64 model -/

theorem bitLenAux_le (fuel : Nat) : ∀ n b : Nat, n < 2 ^ b → bitLenAux fuel n ≤ b := by
  induction fuel with
  | zero => intro n b _; simp [bitLenAux]
  | succ fuel ih =>
    intro n b h
    unfold bitLenAux
    split
    · exact Nat.zero_le _
    · rename_i hn
      cases b with
      | zero => simp at h; exact absurd h hn
      | succ b =>
        have h2 : n / 2 < 2 ^ b := by
          rw [Nat.div_lt_iff_lt_mul (by norm_num)]
          rw [pow_succ] at h
          exact h
        have := ih (n / 2) b h2
        omega

theorem bitLen_le {n b : Nat} (h : n < 2 ^ b) : bitLen n ≤ b :=
  bitLenAux_le n n b h

theorem lt_two_pow_bitLenAux (fuel : Nat) : ∀ n : Nat, n ≤ fuel → n < 2 ^ bitLenAux fuel n := by
  induction fuel with
  | zero => intro n h; simp [bitLenAux]; omega
  | succ fuel ih =>
    intro n h
    unfold bitLenAux
    split
    · rename_i hn; simp [hn]
    · have := ih (n / 2) (by omega)
      rw [pow_succ]
      omega

theorem two_pow_bitLenAux_le (fuel : Nat) :
    ∀ n : Nat, 0 < n → 2 ^ (bitLenAux fuel n - 1) ≤ n := by
  induction fuel with
  | zero => intro n h; simp [bitLenAux]; omega
  | succ fuel ih =>
    intro n h
    unfold bitLenAux
    split
    · omega
    · by_cases h0 : bitLenAux fuel (n / 2) = 0
      · simp [h0]; omega
      · have h2 : 0 < n / 2 := by
          rcases Nat.eq_zero_or_pos (n / 2) with h2 | h2
          · exfalso; apply h0; rw [h2]; cases fuel <;> simp [bitLenAux]
          · exact h2
        have := ih (n / 2) h2
        have e : bitLenAux fuel (n / 2) + 1 - 1 = (bitLenAux fuel (n / 2) - 1) + 1 := by omega
        rw [e, pow_succ]
        omega

/-- The function `bitLen` is the number of binary digits: `2^(bitLen n - 1) ≤ n < 2^(bitLen n)`. -/
theorem bitLen_spec (n : Nat) (h : 0 < n) : 2 ^ (bitLen n - 1) ≤ n ∧ n < 2 ^ bitLen n :=
  ⟨two_pow_bitLenAux_le n n h, lt_two_pow_bitLenAux n n (Nat.le_refl n)⟩

theorem roundHalfEven_ge (n d : Nat) : n / d ≤ roundHalfEven n d := by
  unfold roundHalfEven
  simp only
  split
  · exact Nat.le_refl _
  · split
    · omega
    · split <;> omega

theorem roundHalfEven_le (n d : Nat) (hd : 0 < d) :
    2 * (d * roundHalfEven n d) ≤ 2 * n + d := by
  have h1 := Nat.div_add_mod n d
  have h2 := Nat.mod_lt n hd
  unfold roundHalfEven
  simp only
  split
  · generalize d * (n / d) = m at *; omega
  · split
    · rw [Nat.mul_add]; generalize d * (n / d) = m at *; omega
    · split
      · generalize d * (n / d) = m at *; omega
      · rw [Nat.mul_add]; generalize d * (n / d) = m at *; omega

theorem roundHalfEven_of_dvd (n d : Nat) (hd : 0 < d) (h : d ∣ n) :
    roundHalfEven n d = n / d := by
  have h0 : n % d = 0 := Nat.mod_eq_zero_of_dvd h
  unfold roundHalfEven
  simp [h0, hd]

theorem F64.scale_pos : 0 < F64.scale := by
  unfold F64.scale
  positivity

theorem F64.scale_eq_pow (a b : Nat) (h : a + b = 1074) : F64.scale = 2 ^ (a + b) := by
  unfold F64.scale
  rw [h]

theorem F64.scale_eq_mul (a b : Nat) (h : a + b = 1074) : F64.scale = 2 ^ a * 2 ^ b := by
  rw [F64.scale_eq_pow a b h, pow_add]

theorem F64.roundNat_le (n d b : Nat) (hd : 0 < d)
    (hs : n * F64.scale / d < 2 ^ (b + 53)) :
    2 * (d * F64.roundNat n d) ≤ 2 * (n * F64.scale) + d * 2 ^ b := by
  unfold F64.roundNat
  simp only
  have hsh : bitLen (n * F64.scale / d) - 53 ≤ b := by
    have := bitLen_le hs
    omega
  generalize bitLen (n * F64.scale / d) - 53 = sh at *
  have hp : 0 < d * 2 ^ sh := Nat.mul_pos hd (Nat.two_pow_pos sh)
  have h := roundHalfEven_le (n * F64.scale) (d * 2 ^ sh) hp
  have hmono : d * 2 ^ sh ≤ d * 2 ^ b :=
    Nat.mul_le_mul_left d (Nat.pow_le_pow_right (by norm_num) hsh)
  have e : d * (roundHalfEven (n * F64.scale) (d * 2 ^ sh) * 2 ^ sh)
      = d * 2 ^ sh * roundHalfEven (n * F64.scale) (d * 2 ^ sh) := by ring
  rw [e]
  omega

theorem F64.roundNat_ge (n d y b : Nat) (hd : 0 < d) (hy : y * d ≤ n * F64.scale)
    (hs : n * F64.scale / d < 2 ^ (b + 53)) (hdvd : 2 ^ b ∣ y) : y ≤ F64.roundNat n d := by
  unfold F64.roundNat
  simp only
  have hsh : bitLen (n * F64.scale / d) - 53 ≤ b := by
    have := bitLen_le hs
    omega
  generalize bitLen (n * F64.scale / d) - 53 = sh at *
  have hp : 0 < d * 2 ^ sh := Nat.mul_pos hd (Nat.two_pow_pos sh)
  obtain ⟨z, rfl⟩ : 2 ^ sh ∣ y := Nat.dvd_trans (pow_dvd_pow 2 hsh) hdvd
  have h1 : z ≤ n * F64.scale / (d * 2 ^ sh) := by
    rw [Nat.le_div_iff_mul_le hp]
    calc z * (d * 2 ^ sh) = 2 ^ sh * z * d := by ring
      _ ≤ n * F64.scale := hy
  have h2 := roundHalfEven_ge (n * F64.scale) (d * 2 ^ sh)
  calc 2 ^ sh * z = z * 2 ^ sh := Nat.mul_comm _ _
    _ ≤ roundHalfEven (n * F64.scale) (d * 2 ^ sh) * 2 ^ sh :=
      Nat.mul_le_mul_right _ (Nat.le_trans h1 h2)

theorem F64.roundNat_eq (n d y b : Nat) (hd : 0 < d) (hy : n * F64.scale = y * d)
    (hs : y < 2 ^ (b + 53)) (hdvd : 2 ^ b ∣ y) : F64.roundNat n d = y := by
  have hq : n * F64.scale / d = y := by
    rw [hy]; exact Nat.mul_div_cancel y hd
  unfold F64.roundNat
  simp only
  rw [hq]
  have hsh : bitLen y - 53 ≤ b := by
    have := bitLen_le hs
    omega
  generalize bitLen y - 53 = sh at *
  have hp : 0 < d * 2 ^ sh := Nat.mul_pos hd (Nat.two_pow_pos sh)
  obtain ⟨z, rfl⟩ : 2 ^ sh ∣ y := Nat.dvd_trans (pow_dvd_pow 2 hsh) hdvd
  have e : n * F64.scale = z * (d * 2 ^ sh) := by rw [hy]; ring
  rw [roundHalfEven_of_dvd _ _ hp ⟨z, by rw [e]; ring⟩, e, Nat.mul_div_cancel z hp]
  ring

theorem F64.round_natCast (n d : Nat) :
    F64.round (n : Int) d = ⟨(F64.roundNat n d : Nat)⟩ := by
  unfold F64.round
  have : ¬ ((n : Int) < 0) := by omega
  simp [this]

/-- Conversion of an integer below `2^53` to `float64` is exact. -/
theorem F64.ofInt_natCast (k : Nat) (hk : k < 2 ^ 53) :
    F64.ofInt (k : Int) = ⟨((k * F64.scale : Nat) : Int)⟩ := by
  unfold F64.ofInt
  rw [F64.round_natCast]
  have h1 : k * F64.scale = k * F64.scale * 1 := (Nat.mul_one _).symm
  have h2 : k * F64.scale < 2 ^ (1074 + 53) := by
    rw [pow_add, Nat.mul_comm (2 ^ 1074)]
    unfold F64.scale
    exact Nat.mul_lt_mul_of_pos_right hk (by positivity)
  have h3 : 2 ^ 1074 ∣ k * F64.scale := by
    unfold F64.scale
    exact Nat.dvd_mul_left _ _
  rw [F64.roundNat_eq k 1 _ 1074 Nat.one_pos h1 h2 h3]

theorem F64.div_natCast (a b : Nat) :
    F64.div ⟨(a : Int)⟩ ⟨(b : Int)⟩ = ⟨(F64.roundNat a b : Nat)⟩ := by
  unfold F64.div
  have : ¬ ((b : Int) < 0) := by omega
  simp only [this, if_false, Int.natAbs_ofNat]
  exact F64.round_natCast a b

theorem F64.add_natCast (a b : Nat) :
    F64.add ⟨(a : Int)⟩ ⟨(b : Int)⟩ = ⟨(F64.roundNat (a + b) F64.scale : Nat)⟩ := by
  unfold F64.add
  simp only
  rw [← Int.ofNat_add]
  exact F64.round_natCast (a + b) F64.scale

theorem F64.toInt64_natCast (r : Nat) :
    F64.toInt64 ⟨(r : Int)⟩ = ((r / F64.scale : Nat) : Int) := by
  unfold F64.toInt64
  rfl

/-- The value of `int64(d.Seconds())` for a non-negative duration of `n` nanoseconds, in
terms of the rounding of natural numbers. -/
theorem ttlSeconds_natCast (n : Nat) (hn : n / 1000000000 < 2 ^ 53) :
    ttlSeconds (n : Int)
      = ((F64.roundNat (n / 1000000000 * F64.scale
            + F64.roundNat (n % 1000000000 * F64.scale) (1000000000 * F64.scale))
          F64.scale / F64.scale : Nat) : Int) := by
  have e1 : Int.tdiv (n : Int) Second = ((n / 1000000000 : Nat) : Int) := rfl
  have e2 : Int.tmod (n : Int) Second = ((n % 1000000000 : Nat) : Int) := rfl
  have e3 : (1000000000 : Int) = ((1000000000 : Nat) : Int) := rfl
  have h3 : (1000000000 : Nat) < 2 ^ 53 := by norm_num
  have h2 : n % 1000000000 < 2 ^ 53 :=
    Nat.lt_trans (Nat.mod_lt n (by norm_num)) h3
  unfold ttlSeconds Duration.Seconds
  simp only
  rw [e1, e2, e3, F64.ofInt_natCast _ hn, F64.ofInt_natCast _ h2, F64.ofInt_natCast _ h3,
    F64.div_natCast, F64.add_natCast, F64.toInt64_natCast]

/-- Below `2^24` seconds the two roundings of `Duration.Seconds` never reach the next
whole second. -/
theorem roundNat_seconds (n : Nat) (hn : n < 16777216 * 1000000000) :
    F64.roundNat (n / 1000000000 * F64.scale
        + F64.roundNat (n % 1000000000 * F64.scale) (1000000000 * F64.scale))
      F64.scale / F64.scale = n / 1000000000 := by
  have hsec : n / 1000000000 < 16777216 := by
    rw [Nat.div_lt_iff_lt_mul (by norm_num)]; exact hn
  have hnsec : n % 1000000000 < 1000000000 := Nat.mod_lt n (by norm_num)
  generalize n / 1000000000 = sec at *
  generalize n % 1000000000 = nsec at *
  have hS := F64.scale_pos
  have hSP : F64.scale = 2 ^ 53 * 2 ^ 1021 := F64.scale_eq_mul 53 1021 (by norm_num)
  have hSQ : F64.scale = 2 ^ 29 * 2 ^ 1045 := F64.scale_eq_mul 29 1045 (by norm_num)
  have hQP : (2 : Nat) ^ 1045 = 2 ^ 24 * 2 ^ 1021 := by rw [← pow_add]
  have h53 : (2 : Nat) ^ 53 = 9007199254740992 := by norm_num
  have h29 : (2 : Nat) ^ 29 = 536870912 := by norm_num
  have h24 : (2 : Nat) ^ 24 = 16777216 := by norm_num
  rw [h53] at hSP
  rw [h29] at hSQ
  rw [h24] at hQP
  -- the quotient `float64(nsec)/1e9`
  have hd : 0 < 1000000000 * F64.scale := Nat.mul_pos (by norm_num) hS
  have hqs : nsec * F64.scale * F64.scale / (1000000000 * F64.scale) < 2 ^ (1021 + 53) := by
    rw [Nat.div_lt_iff_lt_mul hd, ← F64.scale_eq_pow 1021 53 (by norm_num)]
    calc nsec * F64.scale * F64.scale = F64.scale * F64.scale * nsec := by ring
      _ < F64.scale * F64.scale * 1000000000 :=
        Nat.mul_lt_mul_of_pos_left hnsec (Nat.mul_pos hS hS)
      _ = F64.scale * (1000000000 * F64.scale) := by ring
  have hq := F64.roundNat_le (nsec * F64.scale) (1000000000 * F64.scale) 1021 hd hqs
  generalize F64.roundNat (nsec * F64.scale) (1000000000 * F64.scale) = q at *
  have hq2 : 2000000000 * q ≤ 2 * (nsec * F64.scale) + 1000000000 * 2 ^ 1021 := by
    apply Nat.le_of_mul_le_mul_left _ hS
    calc F64.scale * (2000000000 * q) = 2 * (1000000000 * F64.scale * q) := by ring
      _ ≤ 2 * (nsec * F64.scale * F64.scale) + 1000000000 * F64.scale * 2 ^ 1021 := hq
      _ = F64.scale * (2 * (nsec * F64.scale) + 1000000000 * 2 ^ 1021) := by ring
  have hnS : nsec * F64.scale ≤ 999999999 * F64.scale :=
    Nat.mul_le_mul_right _ (by omega)
  have hsS : sec * F64.scale ≤ 16777215 * F64.scale :=
    Nat.mul_le_mul_right _ (by omega)
  -- the sum `float64(sec) + quotient`
  have hts : (sec * F64.scale + q) * F64.scale / F64.scale < 2 ^ (1045 + 53) := by
    rw [Nat.mul_div_cancel _ hS, pow_add, h53]
    generalize sec * F64.scale = A at *
    generalize nsec * F64.scale = B at *
    generalize (2 : Nat) ^ 1021 = P at *
    generalize (2 : Nat) ^ 1045 = Q at *
    omega
  have hr := F64.roundNat_le (sec * F64.scale + q) F64.scale 1045 hS hts
  have hr1 := F64.roundNat_ge (sec * F64.scale + q) F64.scale (sec * F64.scale) 1045 hS
    (Nat.mul_le_mul_right _ (Nat.le_add_right _ _)) hts
    (by rw [hSQ]; exact Dvd.dvd.mul_left (dvd_mul_left _ _) _)
  generalize F64.roundNat (sec * F64.scale + q) F64.scale = r at *
  have hr2 : 2 * r ≤ 2 * (sec * F64.scale + q) + 2 ^ 1045 := by
    apply Nat.le_of_mul_le_mul_left _ hS
    calc F64.scale * (2 * r) = 2 * (F64.scale * r) := by ring
      _ ≤ 2 * ((sec * F64.scale + q) * F64.scale) + F64.scale * 2 ^ 1045 := hr
      _ = F64.scale * (2 * (sec * F64.scale + q) + 2 ^ 1045) := by ring
  apply Nat.div_eq_of_lt_le hr1
  rw [Nat.add_mul, Nat.one_mul]
  generalize sec * F64.scale = A at *
  generalize nsec * F64.scale = B at *
  generalize (2 : Nat) ^ 1021 = P at *
  generalize (2 : Nat) ^ 1045 = Q at *
  omega

/-- For a window `d` with `0 ≤ d < 2^24` seconds, `int64(d.Seconds())` is the number of
whole seconds in `d`. -/
theorem ttlSeconds_of_lt (d : Int) (h0 : 0 ≤ d) (h : d < 16777216 * Second) :
    ttlSeconds d = d / Second := by
  obtain ⟨n, rfl⟩ := Int.eq_ofNat_of_zero_le h0
  have hn : n < 16777216 * 1000000000 := by
    unfold Second at h
    omega
  have hsec : n / 1000000000 < 2 ^ 53 := by
    have : n / 1000000000 < 16777216 := by
      rw [Nat.div_lt_iff_lt_mul (by norm_num)]; exact hn
    have h53 : (2 : Nat) ^ 53 = 9007199254740992 := by norm_num
    omega
  rw [ttlSeconds_natCast n hsec, roundNat_seconds n hn]
  rfl

theorem F64.roundNat_zero (d : Nat) : F64.roundNat 0 d = 0 := by
  unfold F64.roundNat roundHalfEven
  simp

/-- A window of a whole number `W < 2^53` of seconds is not changed by the conversion. -/
theorem ttlSeconds_whole (W : Nat) (hW : W < 2 ^ 53) : ttlSeconds ((W : Int) * Second) = W := by
  have e : (W : Int) * Second = ((W * 1000000000 : Nat) : Int) := by
    unfold Second; push_cast; ring
  have h1 : W * 1000000000 / 1000000000 = W := Nat.mul_div_cancel W (by norm_num)
  have h2 : W * 1000000000 % 1000000000 = 0 := Nat.mul_mod_left W 1000000000
  have hS := F64.scale_pos
  have hlt : W * F64.scale < 2 ^ (1074 + 53) := by
    rw [pow_add, Nat.mul_comm (2 ^ 1074)]
    unfold F64.scale
    exact Nat.mul_lt_mul_of_pos_right hW (by positivity)
  have hdvd : 2 ^ 1074 ∣ W * F64.scale := by
    unfold F64.scale
    exact Nat.dvd_mul_left _ _
  rw [e, ttlSeconds_natCast _ (by rw [h1]; exact hW), h1, h2, Nat.zero_mul, F64.roundNat_zero,
    Nat.add_zero, F64.roundNat_eq (W * F64.scale) F64.scale (W * F64.scale) 1074 hS rfl hlt hdvd,
    Nat.mul_div_cancel W hS]

theorem F64.round_units_nonpos (n : Int) (d : Nat) (h : n ≤ 0) : (F64.round n d).units ≤ 0 := by
  unfold F64.round
  split
  · simp
  · have h0 : n = 0 := by omega
    subst h0
    simp [F64.roundNat_zero]

/-- A window that is zero or negative gives a non-positive number of seconds. -/
theorem ttlSeconds_nonpos (d : Int) (h : d ≤ 0) : ttlSeconds d ≤ 0 := by
  have hsec : Int.tdiv d Second ≤ 0 := by
    have := Int.tdiv_nonneg (Int.neg_nonneg_of_nonpos h) (by unfold Second; norm_num : (0:Int) ≤ Second)
    rw [Int.neg_tdiv] at this
    omega
  have hnsec : Int.tmod d Second ≤ 0 := by
    have h1 := Int.tmod_def d Second
    have h2 := Int.tmod_def (-d) Second
    have h3 := Int.tmod_nonneg Second (Int.neg_nonneg_of_nonpos h)
    rw [Int.neg_tdiv] at h2
    linarith
  have hden : (F64.ofInt 1000000000).units = ((1000000000 * F64.scale : Nat) : Int) := by
    have e3 : (1000000000 : Int) = ((1000000000 : Nat) : Int) := rfl
    rw [e3, F64.ofInt_natCast _ (by norm_num)]
  have hq : (F64.div (F64.ofInt (Int.tmod d Second)) (F64.ofInt 1000000000)).units ≤ 0 := by
    unfold F64.div
    have : ¬ ((F64.ofInt 1000000000).units < 0) := by rw [hden]; omega
    simp only [this, if_false]
    exact F64.round_units_nonpos _ _ (F64.round_units_nonpos _ _ hnsec)
  have hsum : (Duration.Seconds d).units ≤ 0 := by
    unfold Duration.Seconds F64.add
    simp only
    apply F64.round_units_nonpos
    have := F64.round_units_nonpos _ 1 hsec
    unfold F64.ofInt at hq ⊢
    omega
  unfold ttlSeconds F64.toInt64
  have := Int.tdiv_nonneg (Int.neg_nonneg_of_nonpos hsum) (Int.ofNat_nonneg F64.scale)
  rw [Int.neg_tdiv] at this
  omega

/-- Every window shorter than one second, negative ones included, counts as no time. -/
theorem ttlSeconds_of_lt_second (d : Int) (h : d < Second) : ttlSeconds d ≤ 0 := by
  rcases le_or_lt d 0 with h0 | h0
  · exact ttlSeconds_nonpos d h0
  · rw [ttlSeconds_of_lt d (le_of_lt h0) (by unfold Second at *; omega)]
    exact le_of_eq (Int.ediv_eq_zero_of_lt (le_of_lt h0) h)

theorem ttlSeconds_five_minutes : ttlSeconds (5 * Minute) = 300 := by
  have h := ttlSeconds_whole 300 (by norm_num)
  have e : ((300 : Nat) : Int) * Second = 5 * Minute := by
    unfold Minute; push_cast; ring
  rw [e] at h
  exact h

theorem ttlSeconds_one_and_a_half : ttlSeconds 1500000000 = 1 := by
  rw [ttlSeconds_of_lt 1500000000 (by norm_num) (by unfold Second; norm_num)]
  unfold Second
  norm_num

/-! ## The contract of `Get` -/

/-- C1, as amended: if the store holds an Entry for the key and
`now - entry.Timestamp < int64(cacheTTL.Seconds())`, the staleness window counted in whole
seconds, then `Get` returns exactly the Entry's value with a nil error, requests nothing
from the backend and leaves the cache as it was. -/
theorem Get_hit {α ε : Type} (c : Cache α) (ju : String → Except ε (Option α))
    (w : World ε) (collectionName key : String) (item : CacheItem α)
    (hitem : c.data key = some item)
    (hfresh : w.now₁ - item.Timestamp < ttlSeconds c.cacheTTL) :
    (c.Get ju w collectionName key).value = item.Value
      ∧ (c.Get ju w collectionName key).err = none
      ∧ (c.Get ju w collectionName key).requests = []
      ∧ (c.Get ju w collectionName key).cache = c := by
  rw [Get_of_fresh c ju w collectionName key item hitem hfresh]
  exact ⟨rfl, rfl, rfl, rfl⟩

/-- Witness of C1: an Entry stored at second 100 is served at second 200 under the
five-minute window of `main`, although the backend is unreachable. -/
theorem Get_hit_witness :
    (200 : Int) - 100 < ttlSeconds (singleton (5 * Minute) (some "v") 100).cacheTTL
      ∧ ((singleton (5 * Minute) (some "v") 100).Get decodeText ⟨200, unreachable, 200⟩
          "items" "x").value = some "v"
      ∧ ((singleton (5 * Minute) (some "v") 100).Get decodeText ⟨200, unreachable, 200⟩
          "items" "x").requests = [] := by
  have hfresh : (200 : Int) - 100 < ttlSeconds (singleton (5 * Minute) (some "v") 100).cacheTTL := by
    show (200 : Int) - 100 < ttlSeconds (5 * Minute)
    rw [ttlSeconds_five_minutes]
    norm_num
  have h := Get_hit (singleton (5 * Minute) (some "v") 100) decodeText ⟨200, unreachable, 200⟩
    "items" "x" ⟨some "v", 100⟩ rfl hfresh
  exact ⟨hfresh, h.1, h.2.2.1⟩

/-- Counterexample to C1 as stated: with a window of 1.5 s and an Entry stored at second
0, a call at second 1 has `now - fetchedAt = 1 s < 1.5 s`, yet `Get` asks the backend and
returns the backend's value, not the Entry's. -/
theorem Get_hit_fails_for_fractional_window :
    (singleton 1500000000 (some "v") 0).data "x" = some ⟨some "v", 0⟩
      ∧ ((1 : Int) - 0) * Second < (singleton 1500000000 (some "v") 0).cacheTTL
      ∧ ((singleton 1500000000 (some "v") 0).Get decodeText ⟨1, answer 200 "w", 1⟩
          "items" "x").requests = ["http://localhost:8080/collections/items?value=x"]
      ∧ ((singleton 1500000000 (some "v") 0).Get decodeText ⟨1, answer 200 "w", 1⟩
          "items" "x").value = some "w" := by
  have hstale : (singleton 1500000000 (some "v") 0).fresh
      (World.now₁ (⟨1, answer 200 "w", 1⟩ : World String)) "x" = false := by
    simp [Cache.fresh, singleton, ttlSeconds_one_and_a_half]
  have hfetch : (singleton 1500000000 (some "v") 0).fetch decodeText
      (World.httpGet (⟨1, answer 200 "w", 1⟩ : World String)) "items" "x" = (some "w", none) := by
    simp [Cache.fetch, answer, decodeText]
  rw [Get_of_not_fresh_ok _ _ _ _ _ _ hstale hfetch]
  refine ⟨rfl, ?_, ?_, rfl⟩
  · simp [singleton, Second]
  · simp [Cache.url, singleton]

/-- C2: when no fresh Entry exists for the key and the backend answers the request with
status 200 and a body that decodes to `v`, `Get` makes exactly one request, returns `v` with
a nil error, and the cache afterwards maps the key to `{v, now₂}` (the clock reading taken
at the write) while every other key, and the configuration, are as before. -/
theorem Get_miss_stores {α ε : Type} (c : Cache α) (ju : String → Except ε (Option α))
    (w : World ε) (collectionName key : String) (v : Option α)
    (hstale : c.fresh w.now₁ key = false)
    (hok : Succeeds ju w.httpGet (c.url collectionName key) v) :
    (c.Get ju w collectionName key).requests = [c.url collectionName key]
      ∧ (c.Get ju w collectionName key).requests.length = 1
      ∧ (c.Get ju w collectionName key).value = v
      ∧ (c.Get ju w collectionName key).err = none
      ∧ (c.Get ju w collectionName key).cache.data key = some ⟨v, w.now₂⟩
      ∧ (∀ k, k ≠ key → (c.Get ju w collectionName key).cache.data k = c.data k)
      ∧ (c.Get ju w collectionName key).cache.serverURL = c.serverURL
      ∧ (c.Get ju w collectionName key).cache.cacheTTL = c.cacheTTL := by
  rw [Get_of_not_fresh_ok c ju w collectionName key v hstale
    (fetch_of_succeeds c ju w.httpGet collectionName key v hok)]
  refine ⟨rfl, rfl, rfl, rfl, ?_, ?_, rfl, rfl⟩
  · simp
  · intro k hk
    simp [hk]

/-- Witness of C2: an Entry stored at second 0 is stale at second 400 under the
five-minute window; the backend's answer replaces it. -/
theorem Get_miss_stores_witness :
    (singleton (5 * Minute) (some "v") 0).fresh 400 "x" = false
      ∧ ((singleton (5 * Minute) (some "v") 0).Get decodeText ⟨400, answer 200 "w", 401⟩
          "items" "x").value = some "w"
      ∧ ((singleton (5 * Minute) (some "v") 0).Get decodeText ⟨400, answer 200 "w", 401⟩
          "items" "x").cache.data "x" = some ⟨some "w", 401⟩ := by
  have hstale : (singleton (5 * Minute) (some "v") 0).fresh 400 "x" = false := by
    simp [Cache.fresh, singleton, ttlSeconds_five_minutes]
  have h := Get_miss_stores (singleton (5 * Minute) (some "v") 0) decodeText
    ⟨400, answer 200 "w", 401⟩ "items" "x" (some "w") hstale ⟨"w", rfl, by simp [decodeText]⟩
  exact ⟨hstale, h.2.2.1, h.2.2.2.2.1⟩

/-- C3: when no fresh Entry exists for the key and `fetch` returns the error `e`, `Get`
returns a nil value and exactly `e`, and the cache afterwards is the cache before: a
stale Entry for the key keeps its value and its timestamp. -/
theorem Get_miss_error {α ε : Type} (c : Cache α) (ju : String → Except ε (Option α))
    (w : World ε) (collectionName key : String) (e : ε)
    (hstale : c.fresh w.now₁ key = false)
    (herr : (c.fetch ju w.httpGet collectionName key).2 = some e) :
    (c.Get ju w collectionName key).value = none
      ∧ (c.Get ju w collectionName key).err = some e
      ∧ (c.Get ju w collectionName key).cache = c
      ∧ (c.Get ju w collectionName key).cache.data key = c.data key := by
  have hfetch : c.fetch ju w.httpGet collectionName key
      = ((c.fetch ju w.httpGet collectionName key).1, some e) := by
    rw [← herr]
  rw [Get_of_not_fresh_err c ju w collectionName key _ e hstale hfetch]
  exact ⟨rfl, rfl, rfl, rfl⟩

/-- Witness of C3: a stale Entry and an unreachable backend. -/
theorem Get_miss_error_witness :
    (singleton (5 * Minute) (some "v") 0).fresh 400 "x" = false
      ∧ ((singleton (5 * Minute) (some "v") 0).Get decodeText ⟨400, unreachable, 401⟩
          "items" "x").err = some "connection refused"
      ∧ ((singleton (5 * Minute) (some "v") 0).Get decodeText ⟨400, unreachable, 401⟩
          "items" "x").cache.data "x" = some ⟨some "v", 0⟩ := by
  have hstale : (singleton (5 * Minute) (some "v") 0).fresh 400 "x" = false := by
    simp [Cache.fresh, singleton, ttlSeconds_five_minutes]
  have h := Get_miss_error (singleton (5 * Minute) (some "v") 0) decodeText
    ⟨400, unreachable, 401⟩ "items" "x" "connection refused" hstale rfl
  exact ⟨hstale, h.2.1, h.2.2.2⟩

/-- C4, what the code does instead: for every response whose status is not 200, `fetch`
returns a nil value together with a nil error, so `Get` on a miss returns a nil error as
well. -/
theorem fetch_status_not_ok {α ε : Type} (c : Cache α) (ju : String → Except ε (Option α))
    (w : World ε) (collectionName key : String) (resp : HttpResponse ε)
    (hresp : w.httpGet (c.url collectionName key) = .ok resp)
    (hstatus : resp.StatusCode ≠ 200)
    (hstale : c.fresh w.now₁ key = false) :
    c.fetch ju w.httpGet collectionName key = (none, none)
      ∧ (c.Get ju w collectionName key).err = none
      ∧ (c.Get ju w collectionName key).value = none := by
  have hfetch : c.fetch ju w.httpGet collectionName key = (none, none) := by
    simp [Cache.fetch, hresp, hstatus]
  rw [Get_of_not_fresh_ok c ju w collectionName key none hstale hfetch]
  exact ⟨hfetch, rfl, rfl⟩

/-- Witness of C4: a 404 answer to a first lookup. -/
theorem fetch_status_not_ok_witness :
    (NewCache "http://localhost:8080" (5 * Minute) : Cache String).fetch decodeText
        (answer 404 "not found") "items" "x" = (none, none)
      ∧ ((NewCache "http://localhost:8080" (5 * Minute) : Cache String).Get decodeText
          ⟨10, answer 404 "not found", 10⟩ "items" "x").err = none := by
  have h := fetch_status_not_ok (NewCache "http://localhost:8080" (5 * Minute) : Cache String)
    decodeText ⟨10, answer 404 "not found", 10⟩ "items" "x" ⟨404, .ok "not found"⟩ rfl
    (by decide) rfl
  exact ⟨h.1, h.2.1⟩

/-- C5, what the code does instead: starting from the empty cache of `NewCache`, one `Get`
whose request is answered with status 404 returns no error and leaves an Entry for the key
in the store, with a nil value, although no successful response was ever received. -/
theorem store_entry_without_success :
    ((NewCache "http://localhost:8080" (5 * Minute) : Cache String).Get decodeText
        ⟨10, answer 404 "not found", 11⟩ "items" "x").err = none
      ∧ ((NewCache "http://localhost:8080" (5 * Minute) : Cache String).Get decodeText
        ⟨10, answer 404 "not found", 11⟩ "items" "x").cache.data "x" = some ⟨none, 11⟩
      ∧ ¬ ∃ v, Succeeds decodeText (answer 404 "not found")
        "http://localhost:8080/collections/items?value=x" v := by
  have hfetch : (NewCache "http://localhost:8080" (5 * Minute) : Cache String).fetch decodeText
      (World.httpGet (⟨10, answer 404 "not found", 11⟩ : World String)) "items" "x"
        = (none, none) := by
    simp [Cache.fetch, answer]
  have hstale : (NewCache "http://localhost:8080" (5 * Minute) : Cache String).fresh
      (World.now₁ (⟨10, answer 404 "not found", 11⟩ : World String)) "x" = false := rfl
  rw [Get_of_not_fresh_ok _ _ _ _ _ _ hstale hfetch]
  refine ⟨rfl, by simp, ?_⟩
  rintro ⟨v, body, h, _⟩
  simp [answer] at h

/-- C6: with a window of `W` whole seconds (a valid `time.Duration`), a backend that
answers with `v`, and the empty cache of `NewCache`: the first `Get` returns `v` after one
request; a second `Get` less than `W` seconds after the stored timestamp returns `v` with
still one request made in all; a third `Get` at least `W` seconds after that timestamp
asks the backend again, which makes two requests in all. -/
theorem read_through_sequence {α ε : Type} (serverURL : String) (W : Nat)
    (hW : (W : Int) * Second < 2 ^ 63)
    (ju : String → Except ε (Option α)) (collectionName key : String) (v : Option α)
    (w₁ w₂ w₃ : World ε)
    (h₁ : Succeeds ju w₁.httpGet
      ((NewCache serverURL (W * Second) : Cache α).url collectionName key) v)
    (h₃ : Succeeds ju w₃.httpGet
      ((NewCache serverURL (W * Second) : Cache α).url collectionName key) v)
    (hsecond : w₂.now₁ - w₁.now₂ < W)
    (hthird : (W : Int) ≤ w₃.now₁ - w₁.now₂) :
    let r₁ := (NewCache serverURL (W * Second) : Cache α).Get ju w₁ collectionName key
    let r₂ := r₁.cache.Get ju w₂ collectionName key
    let r₃ := r₂.cache.Get ju w₃ collectionName key
    (r₁.value = v ∧ r₁.err = none ∧ r₁.requests.length = 1)
      ∧ (r₂.value = v ∧ r₂.err = none ∧ (r₁.requests ++ r₂.requests).length = 1)
      ∧ (r₃.value = v ∧ r₃.err = none
          ∧ (r₁.requests ++ r₂.requests ++ r₃.requests).length = 2) := by
  have hW53 : W < 2 ^ 53 := by
    unfold Second at hW
    have h63 : (2 : Int) ^ 63 = 9223372036854775808 := by norm_num
    have h53 : (2 : Nat) ^ 53 = 9007199254740992 := by norm_num
    rw [h63] at hW
    omega
  have httl := ttlSeconds_whole W hW53
  have e₁ := Get_of_not_fresh_ok (NewCache serverURL (W * Second) : Cache α) ju w₁
    collectionName key v rfl (fetch_of_succeeds _ ju w₁.httpGet collectionName key v h₁)
  intro r₁ r₂ r₃
  have hr₁ : r₁ = _ := e₁
  have e₂ := Get_of_fresh r₁.cache ju w₂ collectionName key ⟨v, w₁.now₂⟩
    (by rw [hr₁]; simp) (by rw [hr₁]; simpa [NewCache, httl] using hsecond)
  have hr₂ : r₂ = _ := e₂
  have hstale : r₂.cache.fresh w₃.now₁ key = false := by
    rw [hr₂, hr₁]
    simp [Cache.fresh, NewCache, httl, hthird]
  have e₃ := Get_of_not_fresh_ok r₂.cache ju w₃ collectionName key v hstale
    (fetch_of_succeeds _ ju w₃.httpGet collectionName key v (by rw [hr₂, hr₁]; exact h₃))
  have hr₃ : r₃ = _ := e₃
  rw [hr₃, hr₂, hr₁]
  simp

/-- Witness of C6: the scenario of the specification on the cache of `main`, whose window
of five minutes is `W = 300`, with calls at seconds 1000, 1001 and 1301. -/
theorem read_through_sequence_witness :
    (mainCache : Cache String) = NewCache "http://localhost:8080" ((300 : Nat) * Second)
      ∧ ((NewCache "http://localhost:8080" ((300 : Nat) * Second) : Cache String).Get decodeText
        ⟨1000, answer 200 "a1", 1000⟩ "items" "x").value = some "a1"
      ∧ ((((NewCache "http://localhost:8080" ((300 : Nat) * Second) : Cache String).Get
          decodeText ⟨1000, answer 200 "a1", 1000⟩ "items" "x").cache.Get decodeText
          ⟨1001, answer 200 "a1", 1001⟩ "items" "x").cache.Get decodeText
          ⟨1301, answer 200 "a1", 1301⟩ "items" "x").value = some "a1" := by
  have h := read_through_sequence (α := String) "http://localhost:8080" 300
    (by unfold Second; norm_num) decodeText "items" "x" (some "a1")
    ⟨1000, answer 200 "a1", 1000⟩ ⟨1001, answer 200 "a1", 1001⟩ ⟨1301, answer 200 "a1", 1301⟩
    ⟨"a1", rfl, by simp [decodeText]⟩ ⟨"a1", rfl, by simp [decodeText]⟩
    (by norm_num) (by norm_num)
  refine ⟨?_, h.1.1, h.2.2.1⟩
  simp only [mainCache, NewCache, Minute, Second]
  norm_num

/-- C8: the store is keyed by the lookup key alone.  After a `Get(c1, key)` that fetched
and stored `v`, a `Get(c2, key)` for any collection `c2`, made while that Entry passes the
staleness test, returns `v` without any request to the backend. -/
theorem Get_ignores_collection {α ε : Type} (c : Cache α) (ju : String → Except ε (Option α))
    (w₁ w₂ : World ε) (c1 c2 key : String) (v : Option α)
    (hstale : c.fresh w₁.now₁ key = false)
    (hok : Succeeds ju w₁.httpGet (c.url c1 key) v)
    (hfresh : w₂.now₁ - w₁.now₂ < ttlSeconds c.cacheTTL) :
    let r₁ := c.Get ju w₁ c1 key
    let r₂ := r₁.cache.Get ju w₂ c2 key
    r₁.cache.data key = some ⟨v, w₁.now₂⟩
      ∧ r₂.value = v ∧ r₂.err = none ∧ r₂.requests = [] ∧ r₂.cache = r₁.cache := by
  have e₁ := Get_of_not_fresh_ok c ju w₁ c1 key v hstale
    (fetch_of_succeeds c ju w₁.httpGet c1 key v hok)
  intro r₁ r₂
  have hr₁ : r₁ = _ := e₁
  have e₂ := Get_of_fresh r₁.cache ju w₂ c2 key ⟨v, w₁.now₂⟩
    (by rw [hr₁]; simp) (by rw [hr₁]; exact hfresh)
  have hr₂ : r₂ = _ := e₂
  rw [hr₂]
  refine ⟨?_, rfl, rfl, rfl, rfl⟩
  rw [hr₁]
  simp

/-- Witness of C8: a value fetched for collection `items` is returned for collection
`users` one second later, although the backend is then unreachable. -/
theorem Get_ignores_collection_witness :
    (((NewCache "http://localhost:8080" (5 * Minute) : Cache String).Get decodeText
        ⟨1000, answer 200 "a1", 1000⟩ "items" "x").cache.Get decodeText
        ⟨1001, unreachable, 1001⟩ "users" "x").value = some "a1"
      ∧ (((NewCache "http://localhost:8080" (5 * Minute) : Cache String).Get decodeText
        ⟨1000, answer 200 "a1", 1000⟩ "items" "x").cache.Get decodeText
        ⟨1001, unreachable, 1001⟩ "users" "x").requests = [] := by
  have h := Get_ignores_collection (NewCache "http://localhost:8080" (5 * Minute) : Cache String)
    decodeText ⟨1000, answer 200 "a1", 1000⟩ ⟨1001, unreachable, 1001⟩ "items" "users" "x"
    (some "a1") rfl ⟨"a1", rfl, by simp [decodeText]⟩
    (by show (1001 : Int) - 1000 < ttlSeconds (5 * Minute); rw [ttlSeconds_five_minutes]; norm_num)
  exact ⟨h.2.1, h.2.2.2.1⟩

set_option maxRecDepth 100000 in
/-- At `2^24` seconds and 999999999 nanoseconds the sum `float64(sec) + float64(nsec)/1e9`
rounds up to the next whole second. -/
theorem ttlSeconds_rounds_up : ttlSeconds 16777216999999999 = 16777217 := by
  decide!

/-- The request list of `Get` is empty exactly when the staleness test passes. -/
theorem Get_requests_eq_nil_iff {α ε : Type} (c : Cache α) (ju : String → Except ε (Option α))
    (w : World ε) (collectionName key : String) :
    (c.Get ju w collectionName key).requests = [] ↔
      ∃ item, c.data key = some item ∧ w.now₁ - item.Timestamp < ttlSeconds c.cacheTTL := by
  constructor
  · intro h
    by_contra hne
    have hstale : c.fresh w.now₁ key = false := by
      rw [fresh_eq_false_iff]
      intro item hitem
      by_contra hlt
      exact hne ⟨item, hitem, by omega⟩
    rcases hf : c.fetch ju w.httpGet collectionName key with ⟨x, _ | e⟩
    · rw [Get_of_not_fresh_ok c ju w collectionName key x hstale hf] at h
      simp at h
    · rw [Get_of_not_fresh_err c ju w collectionName key x e hstale hf] at h
      simp at h
  · rintro ⟨item, hitem, hlt⟩
    rw [Get_of_fresh c ju w collectionName key item hitem hlt]

/-- For a window that is shorter than `2^24` seconds, or a whole number of seconds,
`int64(d.Seconds())` is `floor(d / 1 second)`. -/
theorem ttlSeconds_eq_floor (d : Int) (h0 : 0 ≤ d)
    (h : d < 16777216 * Second ∨ (d % Second = 0 ∧ d < 2 ^ 63)) :
    ttlSeconds d = d / Second := by
  rcases h with h | ⟨hmod, hlt⟩
  · exact ttlSeconds_of_lt d h0 h
  · have hS : (0 : Int) < Second := by unfold Second; norm_num
    have hq : 0 ≤ d / Second := Int.ediv_nonneg h0 (le_of_lt hS)
    obtain ⟨W, hW⟩ := Int.eq_ofNat_of_zero_le hq
    have hd : d = (W : Int) * Second := by
      have := Int.ediv_add_emod d Second
      rw [hmod, hW] at this
      linarith
    have hW53 : W < 2 ^ 53 := by
      have h63 : (2 : Int) ^ 63 = 9223372036854775808 := by norm_num
      have h53 : (2 : Nat) ^ 53 = 9007199254740992 := by norm_num
      rw [h63, hd] at hlt
      unfold Second at hlt
      omega
    rw [hW]
    rw [hd]
    exact ttlSeconds_whole W hW53

/-- C10, as amended: for a window `d ≥ 0` that is shorter than `2^24` seconds, or a whole
number of seconds (and a valid `time.Duration`), `Get` answers without a request to the
backend exactly when an Entry exists and `now - entry.Timestamp < floor(d / 1 second)`,
and it then returns the Entry's value; and when moreover `d` is shorter than one second and
the clock reading is not earlier than the Entry's timestamp, `Get` always asks the
backend. -/
theorem Get_served_iff {α ε : Type} (c : Cache α) (ju : String → Except ε (Option α))
    (w : World ε) (collectionName key : String)
    (h0 : 0 ≤ c.cacheTTL)
    (hwin : c.cacheTTL < 16777216 * Second ∨ (c.cacheTTL % Second = 0 ∧ c.cacheTTL < 2 ^ 63)) :
    ((c.Get ju w collectionName key).requests = [] ↔
        ∃ item, c.data key = some item ∧ w.now₁ - item.Timestamp < c.cacheTTL / Second)
      ∧ (∀ item, c.data key = some item → w.now₁ - item.Timestamp < c.cacheTTL / Second →
          (c.Get ju w collectionName key).value = item.Value
            ∧ (c.Get ju w collectionName key).err = none)
      ∧ (c.cacheTTL < Second → (∀ item, c.data key = some item → item.Timestamp ≤ w.now₁) →
          (c.Get ju w collectionName key).requests = [c.url collectionName key]) := by
  have httl := ttlSeconds_eq_floor c.cacheTTL h0 hwin
  refine ⟨?_, ?_, ?_⟩
  · rw [Get_requests_eq_nil_iff, httl]
  · intro item hitem hfresh
    rw [Get_of_fresh c ju w collectionName key item hitem (by rw [httl]; exact hfresh)]
    exact ⟨rfl, rfl⟩
  · intro hshort hclock
    have hz := ttlSeconds_of_lt_second c.cacheTTL hshort
    have hstale : c.fresh w.now₁ key = false := by
      rw [fresh_eq_false_iff]
      intro item hitem
      have := hclock item hitem
      omega
    rcases hf : c.fetch ju w.httpGet collectionName key with ⟨x, _ | e⟩
    · rw [Get_of_not_fresh_ok c ju w collectionName key x hstale hf]
    · rw [Get_of_not_fresh_err c ju w collectionName key x e hstale hf]

/-- Witness of C10: under a window of 1.5 s, an Entry stored at second 0 is served at
second 0, and the test is `now - Timestamp < 1`. -/
theorem Get_served_iff_witness :
    (((singleton 1500000000 (some "v") 0).Get decodeText ⟨0, unreachable, 0⟩
        "items" "x").requests = [] ↔
      ∃ item, (singleton 1500000000 (some "v") 0).data "x" = some item
        ∧ (0 : Int) - item.Timestamp < (singleton 1500000000 (some "v") 0).cacheTTL / Second) :=
  (Get_served_iff (singleton 1500000000 (some "v") 0) decodeText ⟨0, unreachable, 0⟩
    "items" "x" (by simp [singleton]) (Or.inl (by simp [singleton, Second]))).1

/-- Counterexample to C10 as stated: for the window `d = 16777216.999999999 s` the
conversion `int64(d.Seconds())` is `16777217`, not `floor(d / 1 s) = 16777216`; so an
Entry stored at second 0 is still served at second 16777216, without any request, although
`now - Timestamp < floor(d / 1 s)` is false. -/
theorem Get_served_beyond_floor :
    0 ≤ (singleton 16777216999999999 (some "v") 0).cacheTTL
      ∧ (singleton 16777216999999999 (some "v") 0).data "x" = some ⟨some "v", 0⟩
      ∧ ¬ ((16777216 : Int) - 0 < (singleton 16777216999999999 (some "v") 0).cacheTTL / Second)
      ∧ ((singleton 16777216999999999 (some "v") 0).Get decodeText
          ⟨16777216, unreachable, 16777216⟩ "items" "x").requests = []
      ∧ ((singleton 16777216999999999 (some "v") 0).Get decodeText
          ⟨16777216, unreachable, 16777216⟩ "items" "x").value = some "v" := by
  have hfresh : World.now₁ (⟨16777216, unreachable, 16777216⟩ : World String)
      - (CacheItem.Timestamp (⟨some "v", 0⟩ : CacheItem String))
        < ttlSeconds (singleton 16777216999999999 (some "v") 0).cacheTTL := by
    show (16777216 : Int) - 0 < ttlSeconds 16777216999999999
    rw [ttlSeconds_rounds_up]
    norm_num
  rw [Get_of_fresh _ decodeText _ "items" "x" ⟨some "v", 0⟩ rfl hfresh]
  refine ⟨by simp [singleton], rfl, ?_, rfl, rfl⟩
  simp [singleton, Second]

/-! ## Sequential runs: the rate of backend requests -/

/-- The three ways through `Get`. -/
theorem Get_cases {α ε : Type} (c : Cache α) (ju : String → Except ε (Option α))
    (w : World ε) (collectionName key : String) :
    (∃ item, c.data key = some item ∧ w.now₁ - item.Timestamp < ttlSeconds c.cacheTTL
        ∧ c.Get ju w collectionName key
          = { value := item.Value, err := none, cache := c, requests := [] })
      ∨ (c.fresh w.now₁ key = false
        ∧ ∃ x e, c.fetch ju w.httpGet collectionName key = (x, some e)
          ∧ c.Get ju w collectionName key
            = { value := none, err := some e, cache := c,
                requests := [c.url collectionName key] })
      ∨ (c.fresh w.now₁ key = false
        ∧ ∃ v, c.fetch ju w.httpGet collectionName key = (v, none)
          ∧ c.Get ju w collectionName key
            = { value := v, err := none,
                cache := { c with
                  data := fun k => if k = key then some ⟨v, w.now₂⟩ else c.data k },
                requests := [c.url collectionName key] }) := by
  by_cases hf : ∃ item, c.data key = some item
      ∧ w.now₁ - item.Timestamp < ttlSeconds c.cacheTTL
  · obtain ⟨item, hitem, hlt⟩ := hf
    exact Or.inl ⟨item, hitem, hlt, Get_of_fresh c ju w collectionName key item hitem hlt⟩
  · have hstale : c.fresh w.now₁ key = false := by
      rw [fresh_eq_false_iff]
      intro item hitem
      by_contra hlt
      exact hf ⟨item, hitem, by omega⟩
    rcases hfetch : c.fetch ju w.httpGet collectionName key with ⟨x, _ | e⟩
    · exact Or.inr (Or.inr ⟨hstale, x, rfl,
        Get_of_not_fresh_ok c ju w collectionName key x hstale hfetch⟩)
    · exact Or.inr (Or.inl ⟨hstale, x, e, rfl,
        Get_of_not_fresh_err c ju w collectionName key x e hstale hfetch⟩)

theorem Get_config {α ε : Type} (c : Cache α) (ju : String → Except ε (Option α))
    (w : World ε) (collectionName key : String) :
    (c.Get ju w collectionName key).cache.serverURL = c.serverURL
      ∧ (c.Get ju w collectionName key).cache.cacheTTL = c.cacheTTL := by
  rcases Get_cases c ju w collectionName key with
    ⟨item, _, _, h⟩ | ⟨_, x, e, _, h⟩ | ⟨_, v, _, h⟩ <;> rw [h] <;> exact ⟨rfl, rfl⟩

/-- An Entry of the cache after `Get` is either the Entry before, or it was written by this
call, under the call's key and with the call's second clock reading. -/
theorem Get_data {α ε : Type} (c : Cache α) (ju : String → Except ε (Option α))
    (w : World ε) (collectionName key : String) (k : String) :
    (c.Get ju w collectionName key).cache.data k = c.data k
      ∨ (k = key ∧ ∃ v, (c.Get ju w collectionName key).cache.data k = some ⟨v, w.now₂⟩) := by
  rcases Get_cases c ju w collectionName key with
    ⟨item, _, _, h⟩ | ⟨_, x, e, _, h⟩ | ⟨_, v, _, h⟩ <;> rw [h]
  · exact Or.inl rfl
  · exact Or.inl rfl
  · by_cases hk : k = key
    · exact Or.inr ⟨hk, v, by simp [hk]⟩
    · exact Or.inl (by simp [hk])

/-- Once the store holds an Entry for `k` written at second `t` or later, every later
request for `k` in a sequential run is made at least one counted window after `t`. -/
theorem run_requests_after {α ε : Type} (ju : String → Except ε (Option α)) (k : String)
    (t : Int) : ∀ (calls : List (Call ε)) (c : Cache α),
      (∃ item, c.data k = some item ∧ t ≤ item.Timestamp) →
      (∀ x ∈ clockReadings calls, t ≤ x) →
      ∀ b ∈ c.run ju calls, b.1.key = k → b.2.requests ≠ [] →
        t + ttlSeconds c.cacheTTL ≤ b.1.world.now₁ := by
  intro calls
  induction calls with
  | nil => intro c _ _ b hb; simp [Cache.run] at hb
  | cons call rest ih =>
    intro c hitem hclock b hb hkey hreq
    simp only [Cache.run, List.mem_cons] at hb
    obtain ⟨item, hdata, hts⟩ := hitem
    rcases hb with rfl | hb
    · simp only at hkey hreq
      rw [Ne, Get_requests_eq_nil_iff] at hreq
      rw [hkey] at hreq
      have : ¬ (call.world.now₁ - item.Timestamp < ttlSeconds c.cacheTTL) :=
        fun h => hreq ⟨item, hdata, h⟩
      show t + ttlSeconds c.cacheTTL ≤ call.world.now₁
      omega
    · have hcfg := Get_config c ju call.world call.collectionName call.key
      rw [← hcfg.2]
      apply ih _ _ _ b hb hkey hreq
      · rcases Get_data c ju call.world call.collectionName call.key k with h | ⟨_, v, h⟩
        · exact ⟨item, by rw [h]; exact hdata, hts⟩
        · exact ⟨_, h, hclock _ (by simp [clockReadings])⟩
      · intro x hx
        exact hclock x (by simp [clockReadings, hx])

theorem run_spacing {α ε : Type} (ju : String → Except ε (Option α)) (c₀ : Cache α) :
    ∀ (calls : List (Call ε)) (c : Cache α),
      c.serverURL = c₀.serverURL → c.cacheTTL = c₀.cacheTTL →
      (clockReadings calls).Pairwise (· ≤ ·) →
      (c.run ju calls).Pairwise (fun a b =>
        a.1.key = b.1.key → a.2.requests ≠ [] →
        (∃ v, Succeeds ju a.1.world.httpGet (c₀.url a.1.collectionName a.1.key) v) →
        b.2.requests ≠ [] →
          ttlSeconds c₀.cacheTTL ≤ b.1.world.now₁ - a.1.world.now₂
            ∧ ttlSeconds c₀.cacheTTL ≤ b.1.world.now₁ - a.1.world.now₁) := by
  intro calls
  induction calls with
  | nil => intro c _ _ _; simp [Cache.run]
  | cons call rest ih =>
    intro c hurl httl hclock
    simp only [clockReadings, List.pairwise_cons] at hclock
    obtain ⟨h₁, h₂, hrest⟩ := hclock
    have hcfg := Get_config c ju call.world call.collectionName call.key
    simp only [Cache.run, List.pairwise_cons]
    refine ⟨?_, ih _ (hcfg.1.trans hurl) (hcfg.2.trans httl) hrest⟩
    intro b hb hkey hreq hok hreqb
    obtain ⟨v, hv⟩ := hok
    have hurl2 : c.url call.collectionName call.key = c₀.url call.collectionName call.key := by
      simp [Cache.url, hurl]
    rw [← hurl2] at hv
    have hfetch := fetch_of_succeeds c ju call.world.httpGet call.collectionName call.key v hv
    have hstored : ∃ item, (c.Get ju call.world call.collectionName call.key).cache.data call.key
        = some item ∧ call.world.now₂ ≤ item.Timestamp := by
      rcases Get_cases c ju call.world call.collectionName call.key with
        ⟨item, _, _, h⟩ | ⟨_, x, e, hf, h⟩ | ⟨_, v2, _, h⟩
      · rw [h] at hreq; exact absurd rfl hreq
      · rw [hfetch] at hf; simp at hf
      · rw [h]; exact ⟨⟨v2, call.world.now₂⟩, by simp, le_refl _⟩
    have h := run_requests_after ju call.key call.world.now₂ rest _ hstored h₂ b hb hkey.symm hreqb
    rw [hcfg.2, httl] at h
    have h12 : call.world.now₁ ≤ call.world.now₂ := h₁ _ (by simp)
    constructor <;> omega

/-- C7, as amended: in every sequential run of `Get` calls under a non-decreasing clock,
from any cache and with arbitrary backend outcomes, if a call asked the backend and was
answered successfully (status 200, decodable body), then every later call for the same
key that asks the backend again does so at least `int64(cacheTTL.Seconds())` seconds, the
window counted in whole seconds, after the earlier call stored its result, and hence
after the earlier call began. -/
theorem fetch_spacing {α ε : Type} (c : Cache α) (ju : String → Except ε (Option α))
    (calls : List (Call ε)) (hclock : (clockReadings calls).Pairwise (· ≤ ·)) :
    (c.run ju calls).Pairwise (fun a b =>
      a.1.key = b.1.key → a.2.requests ≠ [] →
      (∃ v, Succeeds ju a.1.world.httpGet (c.url a.1.collectionName a.1.key) v) →
      b.2.requests ≠ [] →
        ttlSeconds c.cacheTTL ≤ b.1.world.now₁ - a.1.world.now₂
          ∧ ttlSeconds c.cacheTTL ≤ b.1.world.now₁ - a.1.world.now₁) :=
  run_spacing ju c calls c rfl rfl hclock

/-- Witness of C7: three calls at seconds 0, 100 and 400 under the five-minute window;
the first and the third ask the backend, 400 seconds apart. -/
theorem fetch_spacing_witness :
    ((NewCache "http://localhost:8080" (5 * Minute) : Cache String).run decodeText
        threeCalls).map (fun p => (p.1.world.now₁, p.2.requests.length))
        = [(0, 1), (100, 0), (400, 1)]
      ∧ ((NewCache "http://localhost:8080" (5 * Minute) : Cache String).run decodeText
          threeCalls).Pairwise (fun a b =>
        a.1.key = b.1.key → a.2.requests ≠ [] →
        (∃ v, Succeeds decodeText a.1.world.httpGet
          ((NewCache "http://localhost:8080" (5 * Minute) : Cache String).url
            a.1.collectionName a.1.key) v) →
        b.2.requests ≠ [] →
          ttlSeconds (NewCache "http://localhost:8080" (5 * Minute) : Cache String).cacheTTL
              ≤ b.1.world.now₁ - a.1.world.now₂
            ∧ ttlSeconds (NewCache "http://localhost:8080" (5 * Minute) : Cache String).cacheTTL
              ≤ b.1.world.now₁ - a.1.world.now₁) :=
  ⟨by simp [Cache.run, threeCalls, Cache.Get, Cache.fresh, NewCache, Cache.fetch, answer,
      decodeText, ttlSeconds_five_minutes],
    fetch_spacing _ decodeText threeCalls (by simp [clockReadings, threeCalls])⟩

/-- Counterexample to C7 as stated.  First, under the five-minute window two calls for the
same key at seconds 0 and 1 both ask the backend when the first request fails: two
requests one second apart.  Second, under a window of 1.5 s two calls at seconds 0 and 1
both ask a backend that answers successfully: two requests 1 s apart, less than the
window. -/
theorem fetch_spacing_fails :
    ((clockReadings twoFailedCalls).Pairwise (· ≤ ·)
      ∧ ((NewCache "http://localhost:8080" (5 * Minute) : Cache String).run decodeText
          twoFailedCalls).map (fun p => (p.1.key, p.1.world.now₁, p.2.requests.length))
        = [("x", 0, 1), ("x", 1, 1)]
      ∧ ((1 : Int) - 0) * Second < 5 * Minute)
    ∧ ((clockReadings twoCalls).Pairwise (· ≤ ·)
      ∧ ((NewCache "http://localhost:8080" 1500000000 : Cache String).run decodeText
          twoCalls).map (fun p => (p.1.key, p.1.world.now₁, p.2.requests.length, p.2.err))
        = [("x", 0, 1, none), ("x", 1, 1, none)]
      ∧ ((1 : Int) - 0) * Second < 1500000000) := by
  refine ⟨⟨by simp [clockReadings, twoFailedCalls], ?_, by simp [Second, Minute]⟩,
    ⟨by simp [clockReadings, twoCalls], ?_, by simp [Second]⟩⟩
  · simp [Cache.run, twoFailedCalls, Cache.Get, Cache.fresh, NewCache, Cache.fetch,
      unreachable]
  · simp [Cache.run, twoCalls, Cache.Get, Cache.fresh, NewCache, Cache.fetch, answer,
      decodeText, ttlSeconds_one_and_a_half]

/-! ## Overlapping calls -/

/-- Run alone, the atomic steps of a call compute `Get`: the lookup and the staleness test
at the reading `now₁`, the fetch, and the write at the reading `now₂`. -/
theorem Sys.run_alone {α ε : Type} (c : Cache α) (ju : String → Except ε (Option α))
    (w : World ε) (collectionName key : String) :
    (Sys.run ju (Sys.init c (fun _ => collectionName) key : Sys α ε 1)
        [⟨0, w.now₁, w.httpGet⟩, ⟨0, w.now₁, w.httpGet⟩, ⟨0, w.now₂, w.httpGet⟩,
          ⟨0, w.now₂, w.httpGet⟩]).cache = (c.Get ju w collectionName key).cache
      ∧ ((Sys.run ju (Sys.init c (fun _ => collectionName) key : Sys α ε 1)
        [⟨0, w.now₁, w.httpGet⟩, ⟨0, w.now₁, w.httpGet⟩, ⟨0, w.now₂, w.httpGet⟩,
          ⟨0, w.now₂, w.httpGet⟩]).threads 0).pc
        = .done (c.Get ju w collectionName key).value (c.Get ju w collectionName key).err := by
  rcases Get_cases c ju w collectionName key with
    ⟨item, hitem, hlt, h⟩ | ⟨hstale, x, e, hf, h⟩ | ⟨hstale, v, hf, h⟩
  · rw [h]
    simp [Sys.run, Sys.step, Sys.init, Thread.step, hitem, hlt]
  · rw [h]
    rw [fresh_eq_false_iff] at hstale
    cases hd : c.data key with
    | none => simp [Sys.run, Sys.step, Sys.init, Thread.step, hd, hf]
    | some item =>
      have := hstale item hd
      have hn : ¬ (w.now₁ - item.Timestamp < ttlSeconds c.cacheTTL) := by omega
      simp [Sys.run, Sys.step, Sys.init, Thread.step, hd, hf, hn]
  · rw [h]
    rw [fresh_eq_false_iff] at hstale
    cases hd : c.data key with
    | none => simp [Sys.run, Sys.step, Sys.init, Thread.step, hd, hf]
    | some item =>
      have := hstale item hd
      have hn : ¬ (w.now₁ - item.Timestamp < ttlSeconds c.cacheTTL) := by omega
      simp [Sys.run, Sys.step, Sys.init, Thread.step, hd, hf, hn]

theorem PcOk_mono {α ε : Type} (k : String) (v : Option α) (c c' : Cache α)
    (h : (c.data k).isSome = true → (c'.data k).isSome = true) (pc : Pc α ε)
    (hpc : PcOk k v c pc) : PcOk k v c' pc := by
  cases pc with
  | start => trivial
  | looked item => intro it hit; exact ⟨(hpc it hit).1, h (hpc it hit).2⟩
  | fetching => trivial
  | fetched x => exact hpc
  | done x e => exact ⟨hpc.1, hpc.2.1, h hpc.2.2⟩

/-- One atomic step of a call for `k` keeps the store and the call within `CacheOk` and
`PcOk`, and never removes the Entry for `k`. -/
theorem Thread.step_ok {α ε : Type} (ju : String → Except ε (Option α)) (now : Int)
    (httpGet : String → Except ε (HttpResponse ε)) (c : Cache α) (t : Thread α ε)
    (k : String) (v : Option α) (t₀ : Int)
    (hkey : t.key = k) (hc : CacheOk k v t₀ c) (hpc : PcOk k v c t.pc) (hnow : t₀ ≤ now)
    (hback : ∀ url, Succeeds ju httpGet url v) :
    CacheOk k v t₀ (t.step ju now httpGet c).1
      ∧ PcOk k v (t.step ju now httpGet c).1 (t.step ju now httpGet c).2.pc
      ∧ (t.step ju now httpGet c).2.key = k
      ∧ ((c.data k).isSome = true → ((t.step ju now httpGet c).1.data k).isSome = true) := by
  obtain ⟨coll, key, pc⟩ := t
  subst hkey
  cases pc with
  | start =>
    refine ⟨hc, ?_, rfl, id⟩
    intro it hit
    exact ⟨(hc it hit).1, Option.isSome_iff_exists.mpr ⟨it, hit⟩⟩
  | looked item =>
    cases item with
    | none => exact ⟨hc, trivial, rfl, id⟩
    | some it =>
      by_cases hlt : now - it.Timestamp < ttlSeconds c.cacheTTL
      · have e : Thread.step ju now httpGet c ⟨coll, key, .looked (some it)⟩
            = (c, ⟨coll, key, .done it.Value none⟩) := by
          simp [Thread.step, hlt]
        rw [e]
        exact ⟨hc, ⟨(hpc it rfl).1, rfl, (hpc it rfl).2⟩, rfl, id⟩
      · have e : Thread.step ju now httpGet c ⟨coll, key, .looked (some it)⟩
            = (c, ⟨coll, key, .fetching⟩) := by
          simp [Thread.step, hlt]
        rw [e]
        exact ⟨hc, trivial, rfl, id⟩
  | fetching =>
    have hf := fetch_of_succeeds c ju httpGet coll key v (hback _)
    have e : Thread.step ju now httpGet c ⟨coll, key, .fetching⟩
        = (c, ⟨coll, key, .fetched v⟩) := by
      simp [Thread.step, hf]
    rw [e]
    exact ⟨hc, rfl, rfl, id⟩
  | fetched x =>
    have hx : x = v := hpc
    have e : Thread.step ju now httpGet c ⟨coll, key, .fetched x⟩
        = ({ c with data := fun k => if k = key then some ⟨x, now⟩ else c.data k },
            ⟨coll, key, .done x none⟩) := rfl
    rw [e]
    refine ⟨?_, ⟨hx, rfl, by simp⟩, rfl, fun _ => by simp⟩
    intro item hitem
    simp only [if_true] at hitem
    cases hitem
    exact ⟨hx, hnow⟩
  | done x e => exact ⟨hc, hpc, rfl, id⟩

theorem Sys.step_inv {α ε : Type} {n : Nat} (ju : String → Except ε (Option α))
    (k : String) (v : Option α) (t₀ : Int) (s : Sys α ε n) (tick : Tick ε n)
    (hs : s.Inv k v t₀) (hnow : t₀ ≤ tick.now) (hback : ∀ url, Succeeds ju tick.httpGet url v) :
    (s.step ju tick).Inv k v t₀ := by
  obtain ⟨hc, hth⟩ := hs
  have h := Thread.step_ok ju tick.now tick.httpGet s.cache (s.threads tick.tid) k v t₀
    (hth tick.tid).1 hc (hth tick.tid).2 hnow hback
  refine ⟨h.1, fun i => ?_⟩
  by_cases hi : i = tick.tid
  · simp only [Sys.step, hi, if_true]
    exact ⟨h.2.2.1, h.2.1⟩
  · simp only [Sys.step, hi, if_false]
    exact ⟨(hth i).1, PcOk_mono k v _ _ h.2.2.2 _ (hth i).2⟩

theorem Sys.run_inv {α ε : Type} {n : Nat} (ju : String → Except ε (Option α))
    (k : String) (v : Option α) (t₀ : Int) : ∀ (ticks : List (Tick ε n)) (s : Sys α ε n),
      s.Inv k v t₀ → (∀ tk ∈ ticks, t₀ ≤ tk.now) →
      (∀ tk ∈ ticks, ∀ url, Succeeds ju tk.httpGet url v) → (s.run ju ticks).Inv k v t₀ := by
  intro ticks
  induction ticks with
  | nil => intro s hs _ _; exact hs
  | cons tick rest ih =>
    intro s hs hnow hback
    simp only [Sys.run, List.foldl_cons]
    exact ih (s.step ju tick)
      (Sys.step_inv ju k v t₀ s tick hs (hnow tick (by simp)) (hback tick (by simp)))
      (fun tk htk => hnow tk (by simp [htk])) (fun tk htk => hback tk (by simp [htk]))

theorem Thread.step_remaining {α ε : Type} (ju : String → Except ε (Option α)) (now : Int)
    (httpGet : String → Except ε (HttpResponse ε)) (c : Cache α) (t : Thread α ε) :
    (t.step ju now httpGet c).2.pc.remaining ≤ t.pc.remaining - 1 := by
  obtain ⟨coll, key, pc⟩ := t
  cases pc with
  | start => simp [Thread.step, Pc.remaining]
  | looked item =>
    cases item with
    | none => simp [Thread.step, Pc.remaining]
    | some it =>
      by_cases hlt : now - it.Timestamp < ttlSeconds c.cacheTTL <;>
        simp [Thread.step, Pc.remaining, hlt]
  | fetching =>
    rcases hf : c.fetch ju httpGet coll key with ⟨x, _ | e⟩ <;>
      simp [Thread.step, Pc.remaining, hf]
  | fetched x => simp [Thread.step, Pc.remaining]
  | done x e => simp [Thread.step, Pc.remaining]

/-- Every time a call is scheduled, the number of steps it still has to take goes down. -/
theorem Sys.run_remaining {α ε : Type} {n : Nat} (ju : String → Except ε (Option α))
    (i : Fin n) : ∀ (ticks : List (Tick ε n)) (s : Sys α ε n),
      ((s.run ju ticks).threads i).pc.remaining
        ≤ (s.threads i).pc.remaining - scheduled ticks i := by
  intro ticks
  induction ticks with
  | nil => intro s; simp [Sys.run, scheduled]
  | cons tick rest ih =>
    intro s
    have h := ih (s.step ju tick)
    simp only [Sys.run, List.foldl_cons] at h ⊢
    by_cases hi : tick.tid = i
    · subst hi
      have hstep := Thread.step_remaining ju tick.now tick.httpGet s.cache (s.threads tick.tid)
      have e : ((s.step ju tick).threads tick.tid).pc
          = ((s.threads tick.tid).step ju tick.now tick.httpGet s.cache).2.pc := by
        simp [Sys.step]
      rw [e] at h
      have hc : scheduled (tick :: rest) tick.tid = scheduled rest tick.tid + 1 := by
        simp [scheduled]
      rw [hc]
      omega
    · have e : ((s.step ju tick).threads i).pc = (s.threads i).pc := by
        have : ¬ i = tick.tid := fun h => hi h.symm
        simp [Sys.step, this]
      rw [e] at h
      have hc : scheduled (tick :: rest) i = scheduled rest i := by
        simp [scheduled, hi]
      rw [hc]
      exact h

theorem Pc.isDone_of_remaining {α ε : Type} (pc : Pc α ε) (h : pc.remaining = 0) :
    pc.isDone = true := by
  cases pc <;> first | rfl | simp [Pc.remaining] at h

/-- C9: take `n ≥ 2` calls of `Get` for the same key, started when the store holds no
Entry for it, a backend that answers every request with `v`, and a clock that never reads
less than `t₀`, the time the first call started.  For every interleaving `ticks` of the
atomic steps of the calls: every call that has returned has returned `v` with a nil error;
once every call has returned, the store holds for the key the Entry `{v, ts}` with
`t₀ ≤ ts` (the map holds one Entry per key); and every call has returned as soon as each
has been scheduled four times. -/
theorem overlapping_misses {α ε : Type} {n : Nat} (hn : 2 ≤ n) (c : Cache α)
    (ju : String → Except ε (Option α)) (collectionName : Fin n → String) (key : String)
    (v : Option α) (t₀ : Int) (ticks : List (Tick ε n))
    (hempty : c.data key = none)
    (hback : ∀ tk ∈ ticks, ∀ url, Succeeds ju tk.httpGet url v)
    (hclock : ∀ tk ∈ ticks, t₀ ≤ tk.now) :
    (∀ i x e, (((Sys.init c collectionName key).run ju ticks).threads i).pc = .done x e →
        x = v ∧ e = none)
      ∧ ((∀ i, (((Sys.init c collectionName key).run ju ticks).threads i).pc.isDone = true) →
          (∀ i, (((Sys.init c collectionName key).run ju ticks).threads i).pc = .done v none)
            ∧ ∃ ts, ((Sys.init c collectionName key).run ju ticks).cache.data key
                = some ⟨v, ts⟩ ∧ t₀ ≤ ts)
      ∧ ((∀ i, 4 ≤ scheduled ticks i) →
          ∀ i, (((Sys.init c collectionName key).run ju ticks).threads i).pc.isDone = true) := by
  have hinit : (Sys.init c collectionName key : Sys α ε n).Inv key v t₀ := by
    refine ⟨?_, fun i => ⟨rfl, trivial⟩⟩
    intro item hitem
    have : c.data key = some item := hitem
    rw [hempty] at this
    cases this
  have hinv := Sys.run_inv ju key v t₀ ticks _ hinit hclock hback
  obtain ⟨hc, hth⟩ := hinv
  have hret : ∀ i x e,
      (((Sys.init c collectionName key).run ju ticks).threads i).pc = .done x e →
        x = v ∧ e = none ∧ (((Sys.init c collectionName key : Sys α ε n).run ju
          ticks).cache.data key).isSome = true := by
    intro i x e h
    have hp := (hth i).2
    rw [h] at hp
    exact hp
  refine ⟨fun i x e h => ⟨(hret i x e h).1, (hret i x e h).2.1⟩, ?_, ?_⟩
  · intro hdone
    have hall : ∀ i, (((Sys.init c collectionName key).run ju ticks).threads i).pc
        = .done v none
        ∧ (((Sys.init c collectionName key : Sys α ε n).run ju ticks).cache.data key).isSome
          = true := by
      intro i
      have hd := hdone i
      cases hpc : (((Sys.init c collectionName key).run ju ticks).threads i).pc with
      | done x e =>
        obtain ⟨hx, he, hsome⟩ := hret i x e hpc
        rw [hx, he]
        exact ⟨rfl, hsome⟩
      | start => rw [hpc] at hd; cases hd
      | looked item => rw [hpc] at hd; cases hd
      | fetching => rw [hpc] at hd; cases hd
      | fetched x => rw [hpc] at hd; cases hd
    refine ⟨fun i => (hall i).1, ?_⟩
    obtain ⟨item, hitem⟩ := Option.isSome_iff_exists.mp (hall ⟨0, by omega⟩).2
    obtain ⟨hval, hts⟩ := hc item hitem
    obtain ⟨x, ts⟩ := item
    simp only at hval hts
    subst hval
    exact ⟨ts, hitem, hts⟩
  · intro hfair i
    apply Pc.isDone_of_remaining
    have h := Sys.run_remaining ju i ticks (Sys.init c collectionName key)
    have h4 := hfair i
    have h0 : ((Sys.init c collectionName key : Sys α ε n).threads i).pc.remaining = 4 := rfl
    omega

/-- Witness of C9: two calls for `"x"` that both look up before either writes; both ask
the backend, both return its answer, and the later write is the Entry that stays. -/
theorem overlapping_misses_witness :
    (∀ i, (((Sys.init (NewCache "http://localhost:8080" (5 * Minute) : Cache String)
        (fun _ => "items") "x" : Sys String String 2).run decodeText bothMiss).threads i).pc
          = .done (some "a1") none)
      ∧ ∃ ts, ((Sys.init (NewCache "http://localhost:8080" (5 * Minute) : Cache String)
        (fun _ => "items") "x" : Sys String String 2).run decodeText bothMiss).cache.data "x"
          = some ⟨some "a1", ts⟩ ∧ 10 ≤ ts := by
  have hback : ∀ tk ∈ bothMiss, ∀ url, Succeeds decodeText tk.httpGet url (some "a1") := by
    intro tk htk url
    simp only [bothMiss, List.mem_cons, List.mem_singleton, List.not_mem_nil, or_false] at htk
    rcases htk with h | h | h | h | h | h | h | h <;> subst h <;>
      exact ⟨"a1", rfl, by simp [decodeText]⟩
  have hclock : ∀ tk ∈ bothMiss, (10 : Int) ≤ tk.now := by
    intro tk htk
    simp only [bothMiss, List.mem_cons, List.mem_singleton, List.not_mem_nil, or_false] at htk
    rcases htk with h | h | h | h | h | h | h | h <;> subst h <;> decide
  have h := overlapping_misses (le_refl 2)
    (NewCache "http://localhost:8080" (5 * Minute) : Cache String) decodeText
    (fun _ => "items") "x" (some "a1") 10 bothMiss rfl hback hclock
  exact h.2.1 (h.2.2 (by decide))

end Kappelmeister
